import Mathlib

/-!
# Execution engine of the data-flow machine

A shallow embedding of `machine.go` (root feed, cascade wiring, the
instrumentation wrappers, the dispatch loop, inject) and of the router part
of `builder.go`.

Pointers are natural numbers (addresses); a nullable pointer is an `Option`.
Calls into capabilities that live outside the repository (telemetry spans and
instruments, the recorder, the raw handler, conduit sends) are observed as
events appended to a trace, in program order.
-/

namespace machine

/-! ## Packets and the observable world -/

/-- Address of a `Packet` (a `*Packet`). -/
abbrev Ptr := Nat

/-- Address of an `edge` (a non-nil `*edge`). -/
abbrev EdgeId := Nat

/-- The exported fields of `Packet`: `ID`, `Data` and the `Error` slot
(`none` is a nil error). The tracing handle `span` is seen through the span
events of the trace. -/
structure Packet where
  ID : String
  Data : String
  Error : Option String
deriving DecidableEq, Repr

/-- A batch `[]*Packet`: packet addresses in order. -/
abbrev Batch := List Ptr

/-- The packet heap: the contents found behind each packet address. -/
abbrev Store := Ptr → Packet

/-- Value of a telemetry label (`label.String`, `label.Int64`, `label.Bool`). -/
inductive LabelValue where
  | str (s : String)
  | int (i : Int)
  | bool (b : Bool)
deriving DecidableEq, Repr

/-- A `label.KeyValue`. -/
abbrev KeyValue := String × LabelValue

/-- One observable call, in the order the program makes it. -/
inductive Event where
  /-- The call `packet.newSpan(ctx, tracer, name, id, vertexType)`. -/
  | newSpan (packet : Ptr) (tracer name id vertexType : String)
  /-- The call `packet.span.AddEvent(ctx, name, labels...)`. -/
  | addEvent (packet : Ptr) (name : String) (labels : List KeyValue)
  /-- The call `packet.span.End()`. -/
  | spanEnd (packet : Ptr)
  /-- The call `Record` on a value recorder instrument. -/
  | record (instrument : String) (value : Int) (labels : List KeyValue)
  /-- The call `Add` on a counter instrument (the float is the converted integer). -/
  | add (instrument : String) (value : Int) (labels : List KeyValue)
  /-- A call of the recorder capability, with the contents of the batch it is shown. -/
  | recorder (id vertexType tag : String) (payload : Batch) (contents : List Packet)
  /-- The raw handler is entered with this batch. -/
  | call (payload : Batch)
  /-- The raw handler returns from this batch. -/
  | ret (payload : Batch)
  /-- The statement `go h(data)`: the handler is launched as a task of its own. -/
  | go (payload : Batch)
  /-- The send `edge.channel <- payload`. -/
  | push (edge : EdgeId) (payload : Batch)
deriving DecidableEq, Repr

/-- Everything a handler invocation can read or change: the packet heap, the
clock read by `time.Now()`, the trace of observable calls, the next free packet
address and the number of ids drawn from `uuid.New()` so far. -/
structure World where
  store : Store
  now : Nat
  trace : List Event
  nextPtr : Ptr
  drawn : Nat

/-- Append one observable call to the trace. -/
def World.emit (w : World) (e : Event) : World :=
  { w with trace := w.trace ++ [e] }

/-- The Go type `handler func([]*Packet)`. -/
abbrev handler := Batch → World → World

/-- An arbitrary node handler supplied by the host: it rewrites the exported
packet fields as `f` says and takes `cost` clock ticks; its entry and its return
are marked in the trace. -/
def rawHandler (f : Batch → Store → Store) (cost : Nat) : handler := fun payload w =>
  let w1 := w.emit (Event.call payload)
  let w2 := { w1 with store := f payload w1.store, now := w1.now + cost }
  w2.emit (Event.ret payload)

/-- The Go type `recorder func(string, string, string, []*Packet)`, known by a
name. The body is supplied by the host; a call is observed as `Event.recorder`
with its arguments and the contents of the batch, and the capability reads the
batch without writing to it. -/
structure recorder where
  name : String
deriving DecidableEq, Repr

/-- The struct `metrics`: the label set and the seven instruments, each known by
the name it was created under. -/
structure metrics where
  labels : List KeyValue
  inCounter : String
  outCounter : String
  errorsCounter : String
  inTotalCounter : String
  outTotalCounter : String
  errorsTotalCounter : String
  batchDuration : String
deriving DecidableEq, Repr

/-- The function `createMetrics`. -/
def createMetrics (id vertexType : String) : metrics :=
  { labels := [("vertex_id", LabelValue.str id), ("vertex_type", LabelValue.str vertexType)]
    inTotalCounter := vertexType ++ "." ++ id ++ ".total.incoming"
    outTotalCounter := vertexType ++ "." ++ id ++ ".total.outgoing"
    errorsTotalCounter := vertexType ++ "." ++ id ++ ".total.errors"
    inCounter := vertexType ++ "." ++ id ++ ".incoming"
    outCounter := vertexType ++ "." ++ id ++ ".outgoing"
    errorsCounter := vertexType ++ "." ++ id ++ ".errors"
    batchDuration := vertexType ++ "." ++ id ++ ".duration" }

/-- The fields of `Option` that the engine dereferences. -/
structure MachineOption where
  FIFO : Bool
  Metrics : Bool
  Span : Bool
deriving DecidableEq, Repr

/-- Modelled from the spec: the connector closure of a node, built by the node
conversions that are missing from the sources. As section 4.3 says it wires the
children of the node in order (none for a sink, one for a processor, two for a
router), each through its own outgoing conduit, by calling `cascade` on it. It
has no failure of its own (section 7 names the guard of `run` as the only
returned failure); an error coming back from a child is passed up at once. -/
structure connector (n : Nat) where
  children : List (Fin n × EdgeId)

/-- The struct `vertex` without its `input` field, which is mutable and lives in
`State`. Vertices are addressed by `Fin n`. -/
structure vertex (n : Nat) where
  id : String
  vertexType : String
  handler : handler
  connector : connector n
  metrics : metrics

/-- The struct `root` without its registry `vertacies`, which is mutable and lives
in `State`, and without the retrieval capability, which is seen through the
`Effect.retrieve` call. -/
structure root (n : Nat) where
  id : String
  next : Option (Fin n)
  option : MachineOption
  recorder : Option recorder

/-! ## The instrumentation wrappers -/

/-- Labels of the "vertex" span event. -/
def vertexLabels (id vertexType packetID : String) (start : Nat) : List KeyValue :=
  [("vertex_id", LabelValue.str id), ("vertex_type", LabelValue.str vertexType),
   ("packet_id", LabelValue.str packetID), ("when", LabelValue.int start)]

/-- Labels of the "error" span event. -/
def errorLabels (id vertexType packetID : String) (failed : Bool) : List KeyValue :=
  [("vertex_id", LabelValue.str id), ("vertex_type", LabelValue.str vertexType),
   ("packet_id", LabelValue.str packetID), ("error", LabelValue.bool failed)]

/-- First loop of `vertex.wrap`, one packet: the "vertex" span event. -/
def wrapEnter (id vertexType : String) (start : Nat) (w : World) (packet : Ptr) : World :=
  w.emit (Event.addEvent packet "vertex" (vertexLabels id vertexType (w.store packet).ID start))

/-- Second loop of `vertex.wrap`, one packet: the "error" span event when the
error slot is set, then `span.End()` when the vertex type is "sender". -/
def wrapLeave (id vertexType : String) (w : World) (packet : Ptr) : World :=
  let w1 :=
    if (w.store packet).Error.isSome then
      w.emit (Event.addEvent packet "error"
        (errorLabels id vertexType (w.store packet).ID (w.store packet).Error.isSome))
    else w
  if vertexType = "sender" then w1.emit (Event.spanEnd packet) else w1

/-- The method `(v *vertex) wrap`: the tracing layer. -/
def vertex.wrap {n : Nat} (v : vertex n) (h : machine.handler) : machine.handler := fun payload w =>
  let start := w.now
  let w1 := payload.foldl (wrapEnter v.id v.vertexType start) w
  let w2 := h payload w1
  payload.foldl (wrapLeave v.id v.vertexType) w2

/-- The loop of `metrics.wrap` that counts the packets whose error slot is set. -/
def countFailures (s : Store) (payload : Batch) : Nat :=
  payload.foldl (fun failures packet => if (s packet).Error.isSome then failures + 1 else failures) 0

/-- The method `(mtrx *metrics) wrap`: the metrics layer. -/
def metrics.wrap (mtrx : metrics) (h : handler) : handler := fun payload w =>
  let w1 := w.emit (Event.record mtrx.inCounter payload.length mtrx.labels)
  let w2 := w1.emit (Event.add mtrx.inTotalCounter payload.length mtrx.labels)
  let start := w2.now
  let w3 := h payload w2
  let duration := w3.now - start
  let failures := countFailures w3.store payload
  let w4 := w3.emit (Event.record mtrx.outCounter payload.length mtrx.labels)
  let w5 := w4.emit (Event.add mtrx.outTotalCounter payload.length mtrx.labels)
  let w6 := w5.emit (Event.record mtrx.errorsCounter failures mtrx.labels)
  let w7 := w6.emit (Event.add mtrx.errorsTotalCounter failures mtrx.labels)
  w7.emit (Event.record mtrx.batchDuration duration mtrx.labels)

/-- One call `r(id, vertexType, tag, payload)` of the recorder capability. -/
def recorder.call (_r : recorder) (id vertexType tag : String) (payload : Batch) (w : World) :
    World :=
  w.emit (Event.recorder id vertexType tag payload (payload.map w.store))

/-- The method `(r recorder) wrap`: the recorder layer. -/
def recorder.wrap (r : recorder) (id vertexType : String) (h : handler) : handler :=
  fun payload w =>
    let w1 := r.call id vertexType "start" payload w
    let w2 := h payload w1
    r.call id vertexType "done" payload w2

/-- Lines 125 to 137 of `cascade`: the handler handed to the dispatch task. -/
def effective {n : Nat} (m : root n) (v : vertex n) : handler :=
  let h := v.handler
  let h := match m.recorder with
    | some r => r.wrap v.id v.vertexType h
    | none => h
  let h := if m.option.Metrics then v.metrics.wrap h else h
  if m.option.Span then v.wrap h else h

/-! ## The dispatch loop -/

/-- One received batch in the loop of the function `do`. -/
def doStep (fifo : Bool) (h : handler) (w : World) (data : Batch) : World :=
  if data.length < 1 then w
  else if fifo then h data w
  else w.emit (Event.go data)

/-- The loop of the function `do` over the batches it receives from its conduit
before it observes the cancellation. -/
def doLoop (fifo : Bool) (h : handler) (received : List Batch) (w : World) : World :=
  received.foldl (doStep fifo h) w

/-! ## The root feed -/

/-- Body of the inner loop of the feed task in `run`: one packet is allocated,
given the next id of `uuid.New()` and the raw item, and appended to the payload. -/
def mintPacket (uuid : Nat → String) (spanEnabled : Bool) (rootID : String)
    (acc : Batch × World) (item : String) : Batch × World :=
  let packet := acc.2.nextPtr
  let w1 : World :=
    { acc.2 with
      store := Function.update acc.2.store packet { ID := uuid acc.2.drawn, Data := item, Error := none }
      nextPtr := packet + 1
      drawn := acc.2.drawn + 1 }
  let w2 :=
    if spanEnabled then
      w1.emit (Event.newSpan packet "retriever.begin" "retriever.begin" rootID "retriever")
    else w1
  (acc.1 ++ [packet], w2)

/-- One raw batch in the feed task of `run`. -/
def feedStep {n : Nat} (uuid : Nat → String) (m : root n) (edge : EdgeId) (w : World)
    (data : List String) : World :=
  if data.length < 1 then w
  else
    let r := data.foldl (mintPacket uuid m.option.Span m.id) ([], w)
    r.2.emit (Event.push edge r.1)

/-- The sends found in a trace, in order. -/
def pushesOf (t : List Event) : List (EdgeId × Batch) :=
  t.filterMap fun e =>
    match e with
    | Event.push edge payload => some (edge, payload)
    | _ => none

/-- What the spec asks of a minted batch: the items in order, each with a nil error
slot and the next id drawn from the generator. -/
def mintedFrom (uuid : Nat → String) : Nat → List String → List Packet
  | _, [] => []
  | k, item :: rest => { ID := uuid k, Data := item, Error := none } :: mintedFrom uuid (k + 1) rest

/-! ## Cascade wiring -/

/-- Control-plane calls made while wiring. -/
inductive Effect (n : Nat) where
  /-- The call `m.retrieve(ctx)`. -/
  | retrieve
  /-- The call `newEdge()`, returning this conduit. -/
  | newEdge (e : EdgeId)
  /-- The feed task of `run` is started, writing to this conduit. -/
  | feed (e : EdgeId)
  /-- The method `cascade` is entered on this vertex with this conduit. -/
  | cascade (v : Fin n) (input : EdgeId)
  /-- The call `input.sendTo(ctx, v.input)`. -/
  | sendTo (src dst : EdgeId)
  /-- The call `do(ctx, fifo, h, input)` made for this vertex. -/
  | dispatch (v : Fin n) (fifo : Bool) (h : handler) (input : EdgeId)
  /-- The call `v.connector(ctx, m)`. -/
  | connect (v : Fin n)

/-- The mutable part of a machine: the `input` field of every vertex, the registry
`vertacies` of the root, the control-plane calls made so far and the next conduit
`newEdge()` will return. -/
structure State (n : Nat) where
  input : Fin n → Option EdgeId
  vertacies : String → Option (Fin n)
  effects : List (Effect n)
  nextEdge : EdgeId

/-- Append one control-plane call. -/
def State.log {n : Nat} (s : State n) (e : Effect n) : State n :=
  { s with effects := s.effects ++ [e] }

/-- The statement `v.input = input`. -/
def State.setInput {n : Nat} (s : State n) (v : Fin n) (input : EdgeId) : State n :=
  { s with input := Function.update s.input v (some input) }

/-- The statement `m.vertacies[id] = v`. -/
def State.register {n : Nat} (s : State n) (id : String) (v : Fin n) : State n :=
  { s with vertacies := Function.update s.vertacies id (some v) }

/-- Run a connector closure: wire the children in order with `wire`, pass up the
first error, return nil at the end. The outer `Option` is `none` when `wire`
ran out of fuel. -/
def connectWith {n : Nat} (wire : Fin n → EdgeId → State n → Option (State n × Option String)) :
    List (Fin n × EdgeId) → State n → Option (State n × Option String)
  | [], s => some (s, none)
  | (c, out) :: rest, s =>
    match wire c out s with
    | none => none
    | some (s1, some err) => some (s1, some err)
    | some (s1, none) => connectWith wire rest s1

/-- State of `cascade` on an unwired vertex when it reaches `v.connector(ctx, m)`:
input assigned, dispatch task started with the effective handler, vertex
registered under its id. -/
def wired {n : Nat} (g : Fin n → vertex n) (m : root n) (v : Fin n) (input : EdgeId)
    (s : State n) : State n :=
  let s1 := (s.log (Effect.cascade v input)).setInput v input
  let s2 := s1.log (Effect.dispatch v m.option.FIFO (effective m (g v)) input)
  let s3 := s2.register (g v).id v
  s3.log (Effect.connect v)

/-- State of `cascade` on a vertex that already has an input: the new conduit is
forwarded into it. -/
def forwarded {n : Nat} (v : Fin n) (input cur : EdgeId) (s : State n) : State n :=
  (s.log (Effect.cascade v input)).log (Effect.sendTo input cur)

/-- The method `(v *vertex) cascade`, with the recursion through the connectors
bounded by fuel. The inner `Option` is the returned error. -/
def cascadeFuel {n : Nat} (g : Fin n → vertex n) (m : root n) :
    Nat → Fin n → EdgeId → State n → Option (State n × Option String)
  | 0, _, _, _ => none
  | k + 1, v, input, s =>
    match s.input v with
    | some cur => some (forwarded v input cur s, none)
    | none =>
      connectWith (cascadeFuel g m k) (g v).connector.children (wired g m v input s)

/-- The method `(v *vertex) cascade`: every call that recurses wires one more of
the `n` vertices, so `n + 1` levels are enough. -/
def cascade {n : Nat} (g : Fin n → vertex n) (m : root n) (v : Fin n) (input : EdgeId)
    (s : State n) : Option (State n × Option String) :=
  cascadeFuel g m (n + 1) v input s

/-- A sequence of `cascade` calls, one after the other, whatever each returns. -/
def cascadeCalls {n : Nat} (g : Fin n → vertex n) (m : root n) :
    List (Fin n × EdgeId) → State n → Option (State n)
  | [], s => some s
  | (v, input) :: rest, s =>
    match cascade g m v input s with
    | none => none
    | some (s1, _) => cascadeCalls g m rest s1

/-- Later `cascade` calls on one vertex: the final state, and the list of what
each call returned. -/
def cascadeAgain {n : Nat} (g : Fin n → vertex n) (m : root n) (v : Fin n) :
    List EdgeId → State n → Option (State n × List (Option String))
  | [], s => some (s, [])
  | input :: rest, s =>
    match cascade g m v input s with
    | none => none
    | some (s1, r) =>
      match cascadeAgain g m v rest s1 with
      | none => none
      | some (s2, rs) => some (s2, r :: rs)

/-- The method `(m *root) run`. -/
def run {n : Nat} (g : Fin n → vertex n) (m : root n) (s : State n) :
    Option (State n × Option String) :=
  match m.next with
  | none => some (s, some "non-terminated machine")
  | some v =>
    let s1 := s.log Effect.retrieve
    let edge := s1.nextEdge
    let s2 := ({ s1 with nextEdge := edge + 1 } : State n).log (Effect.newEdge edge)
    let s3 := s2.log (Effect.feed edge)
    cascade g m v edge s3

/-- Is this the `do` call made for vertex `v`? -/
def Effect.isDispatchOf {n : Nat} (v : Fin n) : Effect n → Bool
  | Effect.dispatch u _ _ _ => decide (u = v)
  | _ => false

/-- Is this the connector call of vertex `v`? -/
def Effect.isConnectOf {n : Nat} (v : Fin n) : Effect n → Bool
  | Effect.connect u => decide (u = v)
  | _ => false

/-- Number of vertices that have no input conduit yet. -/
def unwired {n : Nat} (s : State n) : Nat :=
  (Finset.univ.filter fun v => s.input v = none).card

/-- The registry invariant: every registered vertex is stored under its own id and
has an input conduit. -/
def RegistryOk {n : Nat} (g : Fin n → vertex n) (s : State n) : Prop :=
  ∀ id v, s.vertacies id = some v → (g v).id = id ∧ (s.input v).isSome = true

/-! ## Inject -/

/-- The span loop of `inject`: one `newSpan` call for each packet of the payload. -/
def injectSpans (name id vertexType : String) (payload : Batch) (w : World) : World :=
  payload.foldl (fun acc packet => acc.emit (Event.newSpan packet name name id vertexType)) w

/-- The first statement of `inject`: the entry stored under the id of the root goes
to the input of the child of the root. The result is `none` when a nil pointer
is dereferenced. -/
def injectRoot {n : Nat} (m : root n) (s : State n) (logs : List (String × Batch)) (w : World) :
    Option World :=
  match logs.lookup m.id with
  | none => some w
  | some payload =>
    let w1 := if m.option.Span then injectSpans "retriever.inject" m.id "retriever" payload w else w
    match m.next with
    | none => none
    | some v =>
      match s.input v with
      | none => none
      | some e => some (w1.emit (Event.push e payload))

/-- The loop of `inject` over the entries of the map, in the order they are
visited. The result is `none` when a nil conduit is dereferenced. -/
def injectNodes {n : Nat} (g : Fin n → vertex n) (m : root n) (s : State n) :
    List (String × Batch) → World → Option World
  | [], w => some w
  | (node, payload) :: rest, w =>
    match s.vertacies node with
    | none => injectNodes g m s rest w
    | some v =>
      let w1 :=
        if m.option.Span then
          injectSpans ((g v).vertexType ++ ".inject") (g v).id (g v).vertexType payload w
        else w
      match s.input v with
      | none => none
      | some e => injectNodes g m s rest (w1.emit (Event.push e payload))

/-- The method `(m *root) inject`; the map `logs` is given by its entries. -/
def inject {n : Nat} (g : Fin n → vertex n) (m : root n) (s : State n)
    (logs : List (String × Batch)) (w : World) : Option World :=
  (injectRoot m s logs w).bind (injectNodes g m s logs)

/-- The sends `inject` makes for the entries of registered nodes, as the spec
describes them: one per entry whose id is in the registry, to the input of that
node. -/
def nodePushes {n : Nat} (s : State n) (logs : List (String × Batch)) : List (EdgeId × Batch) :=
  logs.filterMap fun entry =>
    (s.vertacies entry.1).bind fun v => (s.input v).map fun e => (e, entry.2)

/-- Does `inject` look at the entry stored under this id? -/
def targeted {n : Nat} (m : root n) (s : State n) (id : String) : Bool :=
  decide (id = m.id) || (s.vertacies id).isSome

/-! ## The router builder -/

/-- What a child slot of a router may hold: a `*node` or a `*router`. -/
inductive child where
  | node (p : Nat)
  | router (p : Nat)
deriving DecidableEq, Repr

/-- The two child slots of the struct `router`. -/
structure router where
  left : Option child
  right : Option child
deriving DecidableEq, Repr

/-- The struct `VertexBuilder`: addresses of the machine builder and of the node. -/
structure VertexBuilder where
  m : Nat
  x : Nat
deriving DecidableEq, Repr

/-- The struct `RouterBuilder`: addresses of the machine builder and of the router. -/
structure RouterBuilder where
  m : Nat
  x : Nat
deriving DecidableEq, Repr

/-- The routers on the heap. -/
abbrev Routers := Nat → router

/-- The method `RouterBuilder.ToLeft`. -/
def RouterBuilder.ToLeft (m : RouterBuilder) (v : VertexBuilder) (heap : Routers) :
    Routers × VertexBuilder :=
  (Function.update heap m.x { heap m.x with left := some (child.node v.x) }, v)

/-- The method `RouterBuilder.RouteToLeft`. -/
def RouterBuilder.RouteToLeft (m : RouterBuilder) (r : RouterBuilder) (heap : Routers) :
    Routers × RouterBuilder :=
  (Function.update heap m.x { heap m.x with left := some (child.router r.x) }, r)

/-- The method `RouterBuilder.ToRight`, which assigns `m.x.left`. -/
def RouterBuilder.ToRight (m : RouterBuilder) (v : VertexBuilder) (heap : Routers) :
    Routers × VertexBuilder :=
  (Function.update heap m.x { heap m.x with left := some (child.node v.x) }, v)

/-- The method `RouterBuilder.RouteToRight`, which assigns `m.x.left`. -/
def RouterBuilder.RouteToRight (m : RouterBuilder) (r : RouterBuilder) (heap : Routers) :
    Routers × RouterBuilder :=
  (Function.update heap m.x { heap m.x with left := some (child.router r.x) }, r)

/-! ## What the layers are expected to show in the trace -/

/-- The "vertex" span events of the tracing layer, one per packet in batch order. -/
def enterEvents (id vertexType : String) (start : Nat) (s : Store) (payload : Batch) :
    List Event :=
  payload.map fun packet =>
    Event.addEvent packet "vertex" (vertexLabels id vertexType (s packet).ID start)

/-- The events of the tracing layer after the handler, for one packet: the "error"
event if the error slot is set, then the end of the span for a "sender". -/
def leaveEvent (id vertexType : String) (s : Store) (packet : Ptr) : List Event :=
  (if (s packet).Error.isSome then
    [Event.addEvent packet "error" (errorLabels id vertexType (s packet).ID true)]
   else []) ++
  (if vertexType = "sender" then [Event.spanEnd packet] else [])

/-- The events of the tracing layer after the handler, packet by packet. -/
def leaveEvents (id vertexType : String) (s : Store) (payload : Batch) : List Event :=
  payload.flatMap (leaveEvent id vertexType s)

/-- The incoming records of the metrics layer. -/
def metricsBefore (mtrx : metrics) (payload : Batch) : List Event :=
  [Event.record mtrx.inCounter payload.length mtrx.labels,
   Event.add mtrx.inTotalCounter payload.length mtrx.labels]

/-- The outgoing, failed and duration records of the metrics layer. -/
def metricsAfter (mtrx : metrics) (duration : Nat) (s : Store) (payload : Batch) : List Event :=
  [Event.record mtrx.outCounter payload.length mtrx.labels,
   Event.add mtrx.outTotalCounter payload.length mtrx.labels,
   Event.record mtrx.errorsCounter (countFailures s payload) mtrx.labels,
   Event.add mtrx.errorsTotalCounter (countFailures s payload) mtrx.labels,
   Event.record mtrx.batchDuration duration mtrx.labels]

/-- The batches the raw handler was entered with, in order. -/
def callsOf (t : List Event) : List Batch :=
  t.filterMap fun e =>
    match e with
    | Event.call payload => some payload
    | _ => none

/-- The entries and returns of the raw handler found in a trace, in order. -/
def handlerEvents (t : List Event) : List Event :=
  t.filter fun e =>
    match e with
    | Event.call _ => true
    | Event.ret _ => true
    | _ => false

/-- The packets whose span was ended, in order, once per `End` call. -/
def closedSpans (t : List Event) : List Ptr :=
  t.filterMap fun e =>
    match e with
    | Event.spanEnd packet => some packet
    | _ => none

/-- The trace one invocation of the effective handler of a node adds when its raw
handler leaves the packet heap as `after`: tracing outermost, then metrics, then
the recorder, then the raw handler. -/
def expectedTrace {n : Nat} (m : root n) (v : vertex n) (cost : Nat) (start : Nat)
    (before after : Store) (payload : Batch) : List Event :=
  (if m.option.Span then enterEvents v.id v.vertexType start before payload else []) ++
  (if m.option.Metrics then metricsBefore v.metrics payload else []) ++
  (if m.recorder.isSome then
    [Event.recorder v.id v.vertexType "start" payload (payload.map before)] else []) ++
  [Event.call payload, Event.ret payload] ++
  (if m.recorder.isSome then
    [Event.recorder v.id v.vertexType "done" payload (payload.map after)] else []) ++
  (if m.option.Metrics then metricsAfter v.metrics cost after payload else []) ++
  (if m.option.Span then leaveEvents v.id v.vertexType after payload else [])

/-! ## Concrete machines used as examples -/

/-- A world with an empty trace in which every packet has a nil error slot. -/
def quietWorld : World :=
  { store := fun _ => { ID := "p", Data := "d", Error := none }
    now := 0, trace := [], nextPtr := 0, drawn := 0 }

/-- A root with tracing enabled and the other layers disabled. -/
def tracingRoot : root 1 :=
  { id := "root", next := some 0, option := { FIFO := true, Metrics := false, Span := true }
    recorder := none }

/-- A terminal vertex of the given category whose handler leaves the packets alone. -/
def terminal (vertexType : String) : vertex 1 :=
  { id := "out", vertexType := vertexType, handler := rawHandler (fun _ s => s) 0
    connector := { children := [] }, metrics := createMetrics "out" vertexType }

/-- Two nodes "a" and "b", the first feeding the second and the second feeding the
first again through conduits 20 and 21. -/
def twoNodes : Fin 2 → vertex 2 := fun v =>
  if v = 0 then
    { id := "a", vertexType := "processor", handler := rawHandler (fun _ s => s) 0
      connector := { children := [(1, 20)] }, metrics := createMetrics "a" "processor" }
  else
    { id := "b", vertexType := "processor", handler := rawHandler (fun _ s => s) 0
      connector := { children := [(0, 21)] }, metrics := createMetrics "b" "processor" }

/-- A root over `twoNodes` whose child is node "a". -/
def twoNodesRoot : root 2 :=
  { id := "root", next := some 0, option := { FIFO := true, Metrics := false, Span := false }
    recorder := none }

/-- The state of a machine before `run`: no vertex has an input, the registry is
empty, nothing was called. -/
def freshState (n : Nat) : State n :=
  { input := fun _ => none, vertacies := fun _ => none, effects := [], nextEdge := 0 }

/-- The state of a running machine over `twoNodes`: "a" reads conduit 10 and "b"
reads conduit 11, and both are registered. -/
def twoNodesRunning : State 2 :=
  { input := fun v => if v = 0 then some 10 else some 11
    vertacies := fun id => if id = "a" then some 0 else if id = "b" then some 1 else none
    effects := [], nextEdge := 30 }

/-! ## Theorems -/

/-! ### The tracing, metrics and recorder layers -/

theorem foldl_wrapEnter (id vertexType : String) (start : Nat) (payload : Batch) (w : World) :
    payload.foldl (wrapEnter id vertexType start) w =
      { w with trace := w.trace ++ enterEvents id vertexType start w.store payload } := by
  induction payload generalizing w with
  | nil => simp [enterEvents]
  | cons p rest ih =>
    rw [List.foldl_cons, ih]
    simp [wrapEnter, World.emit, enterEvents]

theorem foldl_wrapLeave (id vertexType : String) (payload : Batch) (w : World) :
    payload.foldl (wrapLeave id vertexType) w =
      { w with trace := w.trace ++ leaveEvents id vertexType w.store payload } := by
  induction payload generalizing w with
  | nil => simp [leaveEvents]
  | cons p rest ih =>
    rw [List.foldl_cons, ih]
    by_cases he : (w.store p).Error.isSome = true <;> by_cases hs : vertexType = "sender" <;>
      simp [wrapLeave, World.emit, leaveEvents, leaveEvent, he, hs]

theorem vertex_wrap_apply {n : Nat} (v : vertex n) (h : handler) (payload : Batch) (w : World) :
    v.wrap h payload w =
      { h payload { w with trace := w.trace ++ enterEvents v.id v.vertexType w.now w.store payload }
        with trace :=
          (h payload { w with trace := w.trace ++ enterEvents v.id v.vertexType w.now w.store payload }).trace
            ++ leaveEvents v.id v.vertexType
              (h payload { w with trace := w.trace ++ enterEvents v.id v.vertexType w.now w.store payload }).store
              payload } := by
  simp [vertex.wrap, foldl_wrapEnter, foldl_wrapLeave]

theorem metrics_wrap_apply (mtrx : metrics) (h : handler) (payload : Batch) (w : World) :
    mtrx.wrap h payload w =
      { h payload { w with trace := w.trace ++ metricsBefore mtrx payload }
        with trace :=
          (h payload { w with trace := w.trace ++ metricsBefore mtrx payload }).trace
            ++ metricsAfter mtrx
              ((h payload { w with trace := w.trace ++ metricsBefore mtrx payload }).now - w.now)
              (h payload { w with trace := w.trace ++ metricsBefore mtrx payload }).store
              payload } := by
  simp [metrics.wrap, World.emit, metricsBefore, metricsAfter]

theorem recorder_wrap_apply (r : recorder) (id vertexType : String) (h : handler)
    (payload : Batch) (w : World) :
    r.wrap id vertexType h payload w =
      { h payload { w with trace := w.trace ++
            [Event.recorder id vertexType "start" payload (payload.map w.store)] }
        with trace :=
          (h payload { w with trace := w.trace ++
            [Event.recorder id vertexType "start" payload (payload.map w.store)] }).trace
            ++ [Event.recorder id vertexType "done" payload
                (payload.map (h payload { w with trace := w.trace ++
                  [Event.recorder id vertexType "start" payload (payload.map w.store)] }).store)] } := by
  simp [recorder.wrap, recorder.call, World.emit]

theorem rawHandler_apply (f : Batch → Store → Store) (cost : Nat) (payload : Batch) (w : World) :
    rawHandler f cost payload w =
      { w with store := f payload w.store, now := w.now + cost,
               trace := w.trace ++ [Event.call payload, Event.ret payload] } := by
  simp [rawHandler, World.emit]

/-- The world after one invocation of the effective handler around a raw handler. -/
theorem effective_apply {n : Nat} (m : root n) (v : vertex n) (f : Batch → Store → Store)
    (cost : Nat) (payload : Batch) (w : World) :
    effective m { v with handler := rawHandler f cost } payload w =
      { w with store := f payload w.store, now := w.now + cost,
               trace := w.trace ++
                 expectedTrace m v cost w.now w.store (f payload w.store) payload } := by
  obtain ⟨mid, mnext, ⟨fifo, mt, sp⟩, mrec⟩ := m
  cases mrec <;> cases mt <;> cases sp <;>
    simp [effective, expectedTrace, vertex_wrap_apply, metrics_wrap_apply, recorder_wrap_apply,
      rawHandler_apply]

theorem callsOf_enterEvents (id vertexType : String) (start : Nat) (s : Store) (payload : Batch) :
    callsOf (enterEvents id vertexType start s payload) = [] := by
  induction payload with
  | nil => rfl
  | cons p rest ih => simp [callsOf, enterEvents]

theorem callsOf_leaveEvents (id vertexType : String) (s : Store) (payload : Batch) :
    callsOf (leaveEvents id vertexType s payload) = [] := by
  induction payload with
  | nil => rfl
  | cons p rest ih =>
    have hp : callsOf (leaveEvent id vertexType s p) = [] := by
      unfold leaveEvent callsOf
      split_ifs <;> simp
    have hcons : leaveEvents id vertexType s (p :: rest) =
        leaveEvent id vertexType s p ++ leaveEvents id vertexType s rest := by
      simp [leaveEvents]
    rw [hcons]
    unfold callsOf at hp ih ⊢
    rw [List.filterMap_append, hp, ih]
    rfl

theorem handlerEvents_enterEvents (id vertexType : String) (start : Nat) (s : Store)
    (payload : Batch) : handlerEvents (enterEvents id vertexType start s payload) = [] := by
  induction payload with
  | nil => rfl
  | cons p rest ih => simp [handlerEvents, enterEvents]

theorem handlerEvents_leaveEvents (id vertexType : String) (s : Store) (payload : Batch) :
    handlerEvents (leaveEvents id vertexType s payload) = [] := by
  induction payload with
  | nil => rfl
  | cons p rest ih =>
    have hp : handlerEvents (leaveEvent id vertexType s p) = [] := by
      unfold leaveEvent handlerEvents
      split_ifs <;> simp
    have hcons : leaveEvents id vertexType s (p :: rest) =
        leaveEvent id vertexType s p ++ leaveEvents id vertexType s rest := by
      simp [leaveEvents]
    rw [hcons]
    unfold handlerEvents at hp ih ⊢
    rw [List.filter_append, hp, ih]
    rfl

theorem closedSpans_enterEvents (id vertexType : String) (start : Nat) (s : Store)
    (payload : Batch) : closedSpans (enterEvents id vertexType start s payload) = [] := by
  induction payload with
  | nil => rfl
  | cons p rest ih => simp [closedSpans, enterEvents]

theorem closedSpans_leaveEvents (id vertexType : String) (s : Store) (payload : Batch) :
    closedSpans (leaveEvents id vertexType s payload) =
      if vertexType = "sender" then payload else [] := by
  induction payload with
  | nil => simp [closedSpans, leaveEvents]
  | cons p rest ih =>
    have hp : closedSpans (leaveEvent id vertexType s p) =
        if vertexType = "sender" then [p] else [] := by
      unfold leaveEvent closedSpans
      split_ifs <;> simp
    have hcons : leaveEvents id vertexType s (p :: rest) =
        leaveEvent id vertexType s p ++ leaveEvents id vertexType s rest := by
      simp [leaveEvents]
    rw [hcons]
    unfold closedSpans at hp ih ⊢
    rw [List.filterMap_append, hp, ih]
    split_ifs <;> simp

theorem callsOf_expectedTrace {n : Nat} (m : root n) (v : vertex n) (cost start : Nat)
    (before after : Store) (payload : Batch) :
    callsOf (expectedTrace m v cost start before after payload) = [payload] := by
  have h1 := callsOf_enterEvents v.id v.vertexType start before payload
  have h2 := callsOf_leaveEvents v.id v.vertexType after payload
  unfold callsOf at h1 h2 ⊢
  unfold expectedTrace
  simp only [List.filterMap_append]
  split_ifs <;> simp [h1, h2, metricsBefore, metricsAfter]

theorem handlerEvents_expectedTrace {n : Nat} (m : root n) (v : vertex n) (cost start : Nat)
    (before after : Store) (payload : Batch) :
    handlerEvents (expectedTrace m v cost start before after payload) =
      [Event.call payload, Event.ret payload] := by
  have h1 := handlerEvents_enterEvents v.id v.vertexType start before payload
  have h2 := handlerEvents_leaveEvents v.id v.vertexType after payload
  unfold handlerEvents at h1 h2 ⊢
  unfold expectedTrace
  simp only [List.filter_append]
  split_ifs <;> simp [h1, h2, metricsBefore, metricsAfter]

/-- C3. Instrumentation transparency: for every raw handler, batch and setting of
the tracing, metrics and recorder layers, the effective handler enters the raw
handler exactly once, with the same batch, and leaves the packet heap exactly as
the raw handler alone leaves it; each layer on its own hands its inner handler the
same batch in a world that differs in the trace only, and returns the packet heap
as the inner handler left it. -/
theorem instrumentation_transparent {n : Nat} (m : root n) (v : vertex n)
    (f : Batch → Store → Store) (cost : Nat) (payload : Batch) (w : World) :
    (effective m { v with handler := rawHandler f cost } payload w).store
        = (rawHandler f cost payload w).store ∧
    (effective m { v with handler := rawHandler f cost } payload w).store = f payload w.store ∧
    callsOf (effective m { v with handler := rawHandler f cost } payload w).trace
        = callsOf w.trace ++ [payload] ∧
    (∀ h : handler, (v.wrap h payload w).store =
        (h payload { w with trace := w.trace ++ enterEvents v.id v.vertexType w.now w.store payload }).store) ∧
    (∀ h : handler, (v.metrics.wrap h payload w).store =
        (h payload { w with trace := w.trace ++ metricsBefore v.metrics payload }).store) ∧
    (∀ (r : recorder) (h : handler), (r.wrap v.id v.vertexType h payload w).store =
        (h payload { w with trace := w.trace ++
          [Event.recorder v.id v.vertexType "start" payload (payload.map w.store)] }).store) := by
  refine ⟨?_, ?_, ?_, ?_, ?_, ?_⟩
  · rw [effective_apply, rawHandler_apply]
  · rw [effective_apply]
  · rw [effective_apply]
    have h := callsOf_expectedTrace m v cost w.now w.store (f payload w.store) payload
    unfold callsOf at h ⊢
    simp only [List.filterMap_append, h]
  · intro h
    rw [vertex_wrap_apply]
  · intro h
    rw [metrics_wrap_apply]
  · intro r h
    rw [recorder_wrap_apply]

/-- C4. Composition order: one invocation of the effective handler appends to the
trace, in this order, the "vertex" span events of tracing, the incoming records
of metrics, the recorder call tagged "start", the entry and return of the raw
handler, the recorder call tagged "done" with the id and category of the node and
the same batch, the outgoing, failed and duration records of metrics, and the
events tracing emits after the handler; a disabled layer contributes nothing and
the rest keeps its order. -/
theorem effective_event_order {n : Nat} (m : root n) (v : vertex n)
    (f : Batch → Store → Store) (cost : Nat) (payload : Batch) (w : World) (r : recorder) :
    (effective { m with option := { m.option with Metrics := true, Span := true },
                        recorder := some r }
        { v with handler := rawHandler f cost } payload w).trace =
      w.trace ++ enterEvents v.id v.vertexType w.now w.store payload
        ++ metricsBefore v.metrics payload
        ++ [Event.recorder v.id v.vertexType "start" payload (payload.map w.store)]
        ++ [Event.call payload, Event.ret payload]
        ++ [Event.recorder v.id v.vertexType "done" payload (payload.map (f payload w.store))]
        ++ metricsAfter v.metrics cost (f payload w.store) payload
        ++ leaveEvents v.id v.vertexType (f payload w.store) payload ∧
    (effective m { v with handler := rawHandler f cost } payload w).trace =
      w.trace
        ++ ((if m.option.Span then enterEvents v.id v.vertexType w.now w.store payload else [])
        ++ (if m.option.Metrics then metricsBefore v.metrics payload else [])
        ++ (if m.recorder.isSome then
              [Event.recorder v.id v.vertexType "start" payload (payload.map w.store)] else [])
        ++ [Event.call payload, Event.ret payload]
        ++ (if m.recorder.isSome then
              [Event.recorder v.id v.vertexType "done" payload (payload.map (f payload w.store))]
            else [])
        ++ (if m.option.Metrics then metricsAfter v.metrics cost (f payload w.store) payload else [])
        ++ (if m.option.Span then leaveEvents v.id v.vertexType (f payload w.store) payload
            else [])) := by
  constructor
  · rw [effective_apply]
    simp [expectedTrace]
  · rw [effective_apply]
    rfl

/-- C6, as the code has it: with tracing enabled the effective handler of a node
whose category is "sender" ends the span of each packet of the batch once, in
batch order and after the raw handler has returned, and for every other category
(the category "sink" among them) it ends no span. -/
theorem sender_span_closure {n : Nat} (m : root n) (v : vertex n) (f : Batch → Store → Store)
    (cost : Nat) (payload : Batch) (w : World) (hspan : m.option.Span = true) :
    closedSpans (effective m { v with handler := rawHandler f cost } payload w).trace =
      closedSpans w.trace ++ (if v.vertexType = "sender" then payload else []) ∧
    ∃ pre post,
      (effective m { v with handler := rawHandler f cost } payload w).trace =
        w.trace ++ pre ++ [Event.ret payload] ++ post ∧
      closedSpans pre = [] ∧
      closedSpans post = (if v.vertexType = "sender" then payload else []) := by
  have h1 := closedSpans_enterEvents v.id v.vertexType w.now w.store payload
  have h2 := closedSpans_leaveEvents v.id v.vertexType (f payload w.store) payload
  rw [effective_apply]
  refine ⟨?_, ?_⟩
  · unfold closedSpans at h1 h2 ⊢
    unfold expectedTrace
    simp only [List.filterMap_append, hspan, if_true, h1, h2]
    split_ifs <;> simp [metricsBefore, metricsAfter]
  · refine ⟨(if m.option.Span then enterEvents v.id v.vertexType w.now w.store payload else []) ++
        (if m.option.Metrics then metricsBefore v.metrics payload else []) ++
        (if m.recorder.isSome then
          [Event.recorder v.id v.vertexType "start" payload (payload.map w.store)] else []) ++
        [Event.call payload],
      (if m.recorder.isSome then
          [Event.recorder v.id v.vertexType "done" payload (payload.map (f payload w.store))]
        else []) ++
        (if m.option.Metrics then metricsAfter v.metrics cost (f payload w.store) payload else []) ++
        (if m.option.Span then leaveEvents v.id v.vertexType (f payload w.store) payload else []),
      ?_, ?_, ?_⟩
    · simp [expectedTrace]
    · unfold closedSpans at h1 ⊢
      simp only [List.filterMap_append, hspan, if_true, h1]
      split_ifs <;> simp [metricsBefore]
    · unfold closedSpans at h2 ⊢
      simp only [List.filterMap_append, hspan, if_true, h2]
      split_ifs <;> simp [metricsAfter]

/-- C6 witness: a "sender" with tracing enabled and the batch of packets 7 and 9. -/
theorem sender_span_closure_witness :
    tracingRoot.option.Span = true ∧
    closedSpans (effective tracingRoot
        { terminal "sender" with handler := rawHandler (fun _ s => s) 0 } [7, 9] quietWorld).trace =
      closedSpans quietWorld.trace ++ (if (terminal "sender").vertexType = "sender" then [7, 9] else []) :=
  ⟨rfl, (sender_span_closure tracingRoot (terminal "sender") (fun _ s => s) 0 [7, 9] quietWorld rfl).1⟩

/-- C6 as stated fails: with tracing enabled a node of category "sink" ends no
span of its batch, and a node of category "sender", which is not "sink", ends the
span of its packet. -/
theorem sink_span_not_closed :
    closedSpans (effective tracingRoot (terminal "sink") [7] quietWorld).trace = [] ∧
    closedSpans (effective tracingRoot (terminal "sender") [7] quietWorld).trace = [7] := by
  constructor <;> decide

/-! ### The dispatch loop -/

theorem doLoop_fifo_eq (h : handler) (received : List Batch) (w : World) :
    doLoop true h received w =
      (received.filter fun b => decide (b ≠ [])).foldl (fun acc b => h b acc) w := by
  unfold doLoop
  induction received generalizing w with
  | nil => rfl
  | cons b rest ih =>
    cases b with
    | nil => simpa [doStep] using ih w
    | cons p ps => simpa [doStep] using ih (h (p :: ps) w)

theorem handlerEvents_foldl_effective {n : Nat} (m : root n) (v : vertex n)
    (f : Batch → Store → Store) (cost : Nat) (batches : List Batch) (w : World) :
    handlerEvents (batches.foldl
        (fun acc b => effective m { v with handler := rawHandler f cost } b acc) w).trace =
      handlerEvents w.trace ++ batches.flatMap fun b => [Event.call b, Event.ret b] := by
  induction batches generalizing w with
  | nil => simp
  | cons b rest ih =>
    rw [List.foldl_cons, ih, effective_apply]
    have h := handlerEvents_expectedTrace m v cost w.now w.store (f b w.store) b
    unfold handlerEvents at h ⊢
    simp only [List.filter_append, h]
    simp

/-- C8. Ordered dispatch: with the FIFO option the loop runs the handler on the
dispatch task itself, once for each non-empty batch in arrival order and never for
an empty one; in the trace every entry of the raw handler is followed by its own
return before the entry for the next batch. -/
theorem ordered_dispatch {n : Nat} (m : root n) (v : vertex n) (f : Batch → Store → Store)
    (cost : Nat) (received : List Batch) (w : World) :
    (∀ h : handler, doLoop true h received w =
      (received.filter fun b => decide (b ≠ [])).foldl (fun acc b => h b acc) w) ∧
    handlerEvents (doLoop true (effective m { v with handler := rawHandler f cost }) received w).trace =
      handlerEvents w.trace ++
        (received.filter fun b => decide (b ≠ [])).flatMap fun b => [Event.call b, Event.ret b] := by
  refine ⟨fun h => doLoop_fifo_eq h received w, ?_⟩
  rw [doLoop_fifo_eq, handlerEvents_foldl_effective]

/-! ### The root feed -/

theorem foldl_mintPacket (uuid : Nat → String) (spanEnabled : Bool) (rootID : String)
    (data : List String) (acc : Batch × World) :
    (data.foldl (mintPacket uuid spanEnabled rootID) acc).1 =
        acc.1 ++ List.range' acc.2.nextPtr data.length ∧
    (data.foldl (mintPacket uuid spanEnabled rootID) acc).2.nextPtr =
        acc.2.nextPtr + data.length ∧
    pushesOf (data.foldl (mintPacket uuid spanEnabled rootID) acc).2.trace =
        pushesOf acc.2.trace ∧
    (List.range' acc.2.nextPtr data.length).map
        (data.foldl (mintPacket uuid spanEnabled rootID) acc).2.store =
      mintedFrom uuid acc.2.drawn data ∧
    (∀ p, p < acc.2.nextPtr →
      (data.foldl (mintPacket uuid spanEnabled rootID) acc).2.store p = acc.2.store p) := by
  induction data generalizing acc with
  | nil => simp [mintedFrom]
  | cons item rest ih =>
    obtain ⟨h1, h2, h3, h4, h5⟩ := ih (mintPacket uuid spanEnabled rootID acc item)
    have hn : (mintPacket uuid spanEnabled rootID acc item).2.nextPtr = acc.2.nextPtr + 1 := by
      unfold mintPacket; split_ifs <;> rfl
    have hd : (mintPacket uuid spanEnabled rootID acc item).2.drawn = acc.2.drawn + 1 := by
      unfold mintPacket; split_ifs <;> rfl
    have hb : (mintPacket uuid spanEnabled rootID acc item).1 = acc.1 ++ [acc.2.nextPtr] := by
      unfold mintPacket; rfl
    have ht : pushesOf (mintPacket uuid spanEnabled rootID acc item).2.trace =
        pushesOf acc.2.trace := by
      unfold mintPacket pushesOf
      split_ifs <;> simp [World.emit]
    have hs : (mintPacket uuid spanEnabled rootID acc item).2.store =
        Function.update acc.2.store acc.2.nextPtr
          { ID := uuid acc.2.drawn, Data := item, Error := none } := by
      unfold mintPacket; split_ifs <;> rfl
    rw [hn] at h1 h2 h4 h5
    rw [hd] at h4
    rw [hb] at h1
    rw [ht] at h3
    rw [List.foldl_cons]
    refine ⟨?_, ?_, h3, ?_, ?_⟩
    · rw [h1]
      simp [List.range'_succ]
    · rw [h2]
      simp only [List.length_cons]
      rw [Nat.add_assoc, Nat.add_comm 1 rest.length]
    · simp only [List.length_cons, List.range'_succ, List.map_cons, mintedFrom]
      rw [h4, h5 acc.2.nextPtr (Nat.lt_succ_self _), hs, Function.update_same]
    · intro p hp
      rw [h5 p (Nat.lt_succ_of_lt hp), hs, Function.update_noteq (Nat.ne_of_lt hp)]

/-- C9. Root feed minting: an empty raw batch pushes nothing and changes nothing;
a raw batch of one item or more pushes exactly one batch to the first conduit,
with one packet per item, and in batch order the packets carry the items in
order, a nil error slot and the successive ids drawn from the generator. -/
theorem feed_minting {n : Nat} (uuid : Nat → String) (m : root n) (edge : EdgeId) (w : World)
    (item : String) (rest : List String) :
    feedStep uuid m edge w [] = w ∧
    ∃ payload : Batch,
      pushesOf (feedStep uuid m edge w (item :: rest)).trace =
        pushesOf w.trace ++ [(edge, payload)] ∧
      payload.length = (item :: rest).length ∧
      payload.map (feedStep uuid m edge w (item :: rest)).store =
        mintedFrom uuid w.drawn (item :: rest) ∧
      payload.map (feedStep uuid m edge w (item :: rest)).store =
        { ID := uuid w.drawn, Data := item, Error := none } ::
          mintedFrom uuid (w.drawn + 1) rest := by
  refine ⟨by simp [feedStep], ?_⟩
  obtain ⟨h1, _, h3, h4, _⟩ :=
    foldl_mintPacket uuid m.option.Span m.id (item :: rest) (([] : Batch), w)
  refine ⟨List.range' w.nextPtr (item :: rest).length, ?_, by simp, ?_, ?_⟩
  · simp only [feedStep, List.length_cons, Nat.lt_one_iff, Nat.add_one_ne_zero, if_false]
    rw [h1]
    simp only [World.emit, pushesOf, List.filterMap_append] at h3 ⊢
    rw [h3]
    simp
  · simp only [feedStep, List.length_cons, Nat.lt_one_iff, Nat.add_one_ne_zero, if_false]
    simpa [World.emit] using h4
  · simp only [feedStep, List.length_cons, Nat.lt_one_iff, Nat.add_one_ne_zero, if_false]
    simpa [World.emit, mintedFrom] using h4

/-! ### The router builder -/

/-- C7 on the code: `ToRight` and `RouteToRight` store the new child in the left
slot of the router and leave its right slot as it was, so after `ToLeft(a)` and
`ToRight(b)` on a router without children the left child is `b` and the right
child is still nil. -/
theorem toRight_assigns_left (m : RouterBuilder) (v : VertexBuilder) (r : RouterBuilder)
    (heap : Routers) :
    ((m.ToRight v heap).1 m.x).left = some (child.node v.x) ∧
    ((m.ToRight v heap).1 m.x).right = (heap m.x).right ∧
    ((m.RouteToRight r heap).1 m.x).left = some (child.router r.x) ∧
    ((m.RouteToRight r heap).1 m.x).right = (heap m.x).right ∧
    (((⟨0, 0⟩ : RouterBuilder).ToRight ⟨0, 2⟩
        (((⟨0, 0⟩ : RouterBuilder).ToLeft ⟨0, 1⟩ (fun _ => ⟨none, none⟩)).1)).1 0) =
      { left := some (child.node 2), right := none } := by
  simp [RouterBuilder.ToRight, RouterBuilder.RouteToRight, RouterBuilder.ToLeft]

/-! ### Cascade wiring -/

theorem connectWith_rel {n : Nat} (R : State n → State n → Prop) (hrefl : ∀ s, R s s)
    (htrans : ∀ a b c, R a b → R b c → R a c)
    (wire : Fin n → EdgeId → State n → Option (State n × Option String))
    (hwire : ∀ c out s s' r, wire c out s = some (s', r) → R s s') :
    ∀ children s s' r, connectWith wire children s = some (s', r) → R s s' := by
  intro children
  induction children with
  | nil =>
    intro s s' r h
    simp only [connectWith, Option.some.injEq, Prod.mk.injEq] at h
    obtain ⟨rfl, _⟩ := h
    exact hrefl _
  | cons c rest ih =>
    intro s s' r h
    obtain ⟨c, out⟩ := c
    simp only [connectWith] at h
    cases hw : wire c out s with
    | none => simp [hw] at h
    | some p =>
      obtain ⟨s1, e⟩ := p
      cases e with
      | some err =>
        simp only [hw, Option.some.injEq, Prod.mk.injEq] at h
        obtain ⟨rfl, _⟩ := h
        exact hwire _ _ _ _ _ hw
      | none =>
        simp only [hw] at h
        exact htrans _ _ _ (hwire _ _ _ _ _ hw) (ih _ _ _ h)

/-- Whatever relation holds across the two straight-line paths of `cascade`, is
reflexive and is transitive, holds across a whole `cascade` call. -/
theorem cascadeFuel_rel {n : Nat} (g : Fin n → vertex n) (m : root n)
    (R : State n → State n → Prop) (hrefl : ∀ s, R s s)
    (htrans : ∀ a b c, R a b → R b c → R a c)
    (hfwd : ∀ s v input cur, s.input v = some cur → R s (forwarded v input cur s))
    (hwired : ∀ s v input, s.input v = none → R s (wired g m v input s)) :
    ∀ k v input s s' r, cascadeFuel g m k v input s = some (s', r) → R s s' := by
  intro k
  induction k with
  | zero =>
    intro v input s s' r h
    simp [cascadeFuel] at h
  | succ k ih =>
    intro v input s s' r h
    simp only [cascadeFuel] at h
    cases hin : s.input v with
    | some cur =>
      simp only [hin, Option.some.injEq, Prod.mk.injEq] at h
      obtain ⟨rfl, _⟩ := h
      exact hfwd s v input cur hin
    | none =>
      simp only [hin] at h
      exact htrans _ _ _ (hwired s v input hin)
        (connectWith_rel R hrefl htrans _ ih _ _ _ _ h)

theorem connectWith_nil_error {n : Nat}
    (wire : Fin n → EdgeId → State n → Option (State n × Option String))
    (hwire : ∀ c out s s' r, wire c out s = some (s', r) → r = none) :
    ∀ children s s' r, connectWith wire children s = some (s', r) → r = none := by
  intro children
  induction children with
  | nil =>
    intro s s' r h
    simp only [connectWith, Option.some.injEq, Prod.mk.injEq] at h
    exact h.2.symm
  | cons c rest ih =>
    intro s s' r h
    obtain ⟨c, out⟩ := c
    simp only [connectWith] at h
    cases hw : wire c out s with
    | none => simp [hw] at h
    | some p =>
      obtain ⟨s1, e⟩ := p
      cases e with
      | some err => exact absurd (hwire _ _ _ _ _ hw) (by simp)
      | none =>
        simp only [hw] at h
        exact ih _ _ _ h

theorem cascadeFuel_nil_error {n : Nat} (g : Fin n → vertex n) (m : root n) :
    ∀ k v input s s' r, cascadeFuel g m k v input s = some (s', r) → r = none := by
  intro k
  induction k with
  | zero =>
    intro v input s s' r h
    simp [cascadeFuel] at h
  | succ k ih =>
    intro v input s s' r h
    simp only [cascadeFuel] at h
    cases hin : s.input v with
    | some cur =>
      simp only [hin, Option.some.injEq, Prod.mk.injEq] at h
      exact h.2.symm
    | none =>
      simp only [hin] at h
      exact connectWith_nil_error _ ih _ _ _ _ h

theorem unwired_forwarded {n : Nat} (v : Fin n) (input cur : EdgeId) (s : State n) :
    unwired (forwarded v input cur s) = unwired s := rfl

theorem unwired_wired {n : Nat} (g : Fin n → vertex n) (m : root n) (v : Fin n)
    (input : EdgeId) (s : State n) (h : s.input v = none) :
    unwired (wired g m v input s) < unwired s := by
  unfold unwired
  apply Finset.card_lt_card
  refine ⟨?_, ?_⟩
  · intro u hu
    simp only [Finset.mem_filter, Finset.mem_univ, true_and] at hu ⊢
    by_cases huv : u = v
    · subst huv
      exact h
    · simpa [wired, State.log, State.setInput, State.register, Function.update_noteq huv] using hu
  · intro hsub
    have hv : v ∈ Finset.univ.filter fun u => s.input u = none := by
      simp [h]
    have := hsub hv
    simp [wired, State.log, State.setInput, State.register] at this

theorem connectWith_total {n : Nat} (k : Nat)
    (wire : Fin n → EdgeId → State n → Option (State n × Option String))
    (hwire : ∀ c out s, unwired s < k →
      ∃ s' r, wire c out s = some (s', r) ∧ unwired s' ≤ unwired s) :
    ∀ children s, unwired s < k →
      ∃ s' r, connectWith wire children s = some (s', r) ∧ unwired s' ≤ unwired s := by
  intro children
  induction children with
  | nil =>
    intro s _
    exact ⟨s, none, rfl, le_refl _⟩
  | cons c rest ih =>
    intro s hs
    obtain ⟨c, out⟩ := c
    obtain ⟨s1, e, hw, hle⟩ := hwire c out s hs
    cases e with
    | some err =>
      exact ⟨s1, some err, by simp [connectWith, hw], hle⟩
    | none =>
      obtain ⟨s2, r, h2, hle2⟩ := ih s1 (lt_of_le_of_lt hle hs)
      exact ⟨s2, r, by simp [connectWith, hw, h2], le_trans hle2 hle⟩

theorem cascadeFuel_total {n : Nat} (g : Fin n → vertex n) (m : root n) :
    ∀ k v input s, unwired s < k →
      ∃ s' r, cascadeFuel g m k v input s = some (s', r) ∧ unwired s' ≤ unwired s := by
  intro k
  induction k with
  | zero =>
    intro v input s hs
    exact absurd hs (Nat.not_lt_zero _)
  | succ k ih =>
    intro v input s hs
    cases hin : s.input v with
    | some cur =>
      exact ⟨forwarded v input cur s, none, by simp [cascadeFuel, hin], le_refl _⟩
    | none =>
      have hlt := unwired_wired g m v input s hin
      obtain ⟨s', r, h, hle⟩ :=
        connectWith_total k (cascadeFuel g m k) ih (g v).connector.children
          (wired g m v input s) (by omega)
      exact ⟨s', r, by simp [cascadeFuel, hin, h], le_trans hle (le_of_lt hlt)⟩

theorem unwired_le {n : Nat} (s : State n) : unwired s ≤ n := by
  unfold unwired
  calc (Finset.univ.filter fun v => s.input v = none).card
      ≤ (Finset.univ : Finset (Fin n)).card := Finset.card_filter_le _ _
    _ = n := by simp

/-- Every `cascade` call returns, and what it returns is nil. -/
theorem cascade_total {n : Nat} (g : Fin n → vertex n) (m : root n) (v : Fin n)
    (input : EdgeId) (s : State n) : ∃ s', cascade g m v input s = some (s', none) := by
  obtain ⟨s', r, h, _⟩ :=
    cascadeFuel_total g m (n + 1) v input s (Nat.lt_succ_of_le (unwired_le s))
  have hr := cascadeFuel_nil_error g m _ _ _ _ _ _ h
  subst hr
  exact ⟨s', h⟩

/-- A vertex that is wired keeps its input across any `cascade` call, and the call
starts no dispatch task for it and does not invoke its connector. -/
theorem cascadeFuel_frame {n : Nat} (g : Fin n → vertex n) (m : root n) (u : Fin n) :
    ∀ k v input s s' r, cascadeFuel g m k v input s = some (s', r) →
      ∀ x, s.input u = some x →
        s'.input u = some x ∧
        ∃ added, s'.effects = s.effects ++ added ∧
          ∀ ef ∈ added, Effect.isDispatchOf u ef = false ∧ Effect.isConnectOf u ef = false := by
  apply cascadeFuel_rel g m
    (fun s s' => ∀ x, s.input u = some x →
        s'.input u = some x ∧
        ∃ added, s'.effects = s.effects ++ added ∧
          ∀ ef ∈ added, Effect.isDispatchOf u ef = false ∧ Effect.isConnectOf u ef = false)
  · intro s x hx
    exact ⟨hx, [], by simp, by simp⟩
  · intro a b c hab hbc x hx
    obtain ⟨hb, ab, hab1, hab2⟩ := hab x hx
    obtain ⟨hc, bc, hbc1, hbc2⟩ := hbc x hb
    refine ⟨hc, ab ++ bc, by rw [hbc1, hab1, List.append_assoc], ?_⟩
    intro ef hef
    rcases List.mem_append.1 hef with h | h
    · exact hab2 ef h
    · exact hbc2 ef h
  · intro s v input cur _ x hx
    refine ⟨hx, [Effect.cascade v input, Effect.sendTo input cur], ?_, ?_⟩
    · simp [forwarded, State.log]
    · intro ef hef
      simp only [List.mem_cons, List.mem_singleton, List.not_mem_nil, or_false] at hef
      rcases hef with rfl | rfl <;> exact ⟨rfl, rfl⟩
  · intro s v input hv x hx
    have hne : u ≠ v := by
      intro h
      rw [h, hv] at hx
      exact Option.noConfusion hx
    refine ⟨?_, [Effect.cascade v input,
        Effect.dispatch v m.option.FIFO (effective m (g v)) input, Effect.connect v], ?_, ?_⟩
    · simpa [wired, State.log, State.setInput, State.register, Function.update_noteq hne] using hx
    · simp [wired, State.log, State.setInput, State.register]
    · intro ef hef
      simp only [List.mem_cons, List.mem_singleton, List.not_mem_nil, or_false] at hef
      have hvu : ¬ v = u := fun h => hne h.symm
      rcases hef with rfl | rfl | rfl
      · exact ⟨rfl, rfl⟩
      · exact ⟨by simp [Effect.isDispatchOf, hvu], rfl⟩
      · exact ⟨rfl, by simp [Effect.isConnectOf, hvu]⟩

theorem connectWith_frame {n : Nat} (g : Fin n → vertex n) (m : root n) (u : Fin n) (k : Nat) :
    ∀ children s s' r, connectWith (cascadeFuel g m k) children s = some (s', r) →
      ∀ x, s.input u = some x →
        s'.input u = some x ∧
        ∃ added, s'.effects = s.effects ++ added ∧
          ∀ ef ∈ added, Effect.isDispatchOf u ef = false ∧ Effect.isConnectOf u ef = false := by
  apply connectWith_rel
    (fun s s' => ∀ x, s.input u = some x →
        s'.input u = some x ∧
        ∃ added, s'.effects = s.effects ++ added ∧
          ∀ ef ∈ added, Effect.isDispatchOf u ef = false ∧ Effect.isConnectOf u ef = false)
  · intro s x hx
    exact ⟨hx, [], by simp, by simp⟩
  · intro a b c hab hbc x hx
    obtain ⟨hb, ab, hab1, hab2⟩ := hab x hx
    obtain ⟨hc, bc, hbc1, hbc2⟩ := hbc x hb
    refine ⟨hc, ab ++ bc, by rw [hbc1, hab1, List.append_assoc], ?_⟩
    intro ef hef
    rcases List.mem_append.1 hef with h | h
    · exact hab2 ef h
    · exact hbc2 ef h
  · intro c out s s' r h
    exact cascadeFuel_frame g m u k c out s s' r h

theorem cascade_of_wired {n : Nat} (g : Fin n → vertex n) (m : root n) (v : Fin n)
    (input cur : EdgeId) (s : State n) (h : s.input v = some cur) :
    cascade g m v input s = some (forwarded v input cur s, none) := by
  simp [cascade, cascadeFuel, h]

theorem cascadeAgain_of_wired {n : Nat} (g : Fin n → vertex n) (m : root n) (v : Fin n)
    (cur : EdgeId) (es : List EdgeId) :
    ∀ s : State n, s.input v = some cur →
      cascadeAgain g m v es s =
        some ({ s with effects := s.effects ++
                  es.flatMap fun e => [Effect.cascade v e, Effect.sendTo e cur] },
              es.map fun _ => none) := by
  induction es with
  | nil =>
    intro s _
    simp [cascadeAgain]
  | cons e rest ih =>
    intro s hs
    have hf : (forwarded v e cur s).input v = some cur := hs
    simp only [cascadeAgain, cascade_of_wired g m v e cur s hs, ih _ hf]
    simp [forwarded, State.log]

/-- C2. Idempotent cascade, first writer wins: on a vertex without input the first
call returns nil, makes the given conduit the input of the vertex, starts the one
dispatch task of the vertex on that conduit with the effective handler and invokes
the connector once; wiring the descendants adds neither a dispatch task nor a
connector call for the vertex. Every later call, whatever its conduit, returns nil
and only adds the forwarding of that conduit into the first one: input, registry
and the next conduit are those left by the first call. -/
theorem cascade_idempotent {n : Nat} (g : Fin n → vertex n) (m : root n) (v : Fin n)
    (e1 : EdgeId) (es : List EdgeId) (s : State n) (hv : s.input v = none) :
    ∃ s1 added,
      cascade g m v e1 s = some (s1, none) ∧
      s1.input v = some e1 ∧
      s1.effects = s.effects ++
        [Effect.cascade v e1, Effect.dispatch v m.option.FIFO (effective m (g v)) e1,
         Effect.connect v] ++ added ∧
      (∀ ef ∈ added, Effect.isDispatchOf v ef = false ∧ Effect.isConnectOf v ef = false) ∧
      cascadeAgain g m v es s1 =
        some ({ s1 with effects := s1.effects ++
                  es.flatMap fun e => [Effect.cascade v e, Effect.sendTo e e1] },
              es.map fun _ => none) ∧
      (s1.effects ++ es.flatMap fun e => [Effect.cascade v e, Effect.sendTo e e1]).countP
          (Effect.isDispatchOf v) = s.effects.countP (Effect.isDispatchOf v) + 1 ∧
      (s1.effects ++ es.flatMap fun e => [Effect.cascade v e, Effect.sendTo e e1]).countP
          (Effect.isConnectOf v) = s.effects.countP (Effect.isConnectOf v) + 1 := by
  obtain ⟨s1, h1⟩ := cascade_total g m v e1 s
  have hc : connectWith (cascadeFuel g m n) (g v).connector.children (wired g m v e1 s) =
      some (s1, none) := by
    simpa [cascade, cascadeFuel, hv] using h1
  have hw : (wired g m v e1 s).input v = some e1 := by
    simp [wired, State.log, State.setInput, State.register]
  obtain ⟨hin, added, heff, hadded⟩ := connectWith_frame g m v n _ _ _ _ hc e1 hw
  have heff' : s1.effects = s.effects ++
      [Effect.cascade v e1, Effect.dispatch v m.option.FIFO (effective m (g v)) e1,
       Effect.connect v] ++ added := by
    rw [heff]
    simp [wired, State.log, State.setInput, State.register]
  have hfwd : ∀ p : Effect n → Bool, (∀ e, p (Effect.cascade v e) = false) →
      (∀ a b, p (Effect.sendTo a b) = false) →
      (es.flatMap fun e => [Effect.cascade v e, Effect.sendTo e e1]).countP p = 0 := by
    intro p hp1 hp2
    rw [List.countP_eq_zero]
    intro ef hef
    simp only [List.mem_flatMap, List.mem_cons, List.mem_singleton, List.not_mem_nil,
      or_false] at hef
    obtain ⟨e, _, rfl | rfl⟩ := hef
    · simp [hp1]
    · simp [hp2]
  have hzero : ∀ p : Effect n → Bool, (∀ ef ∈ added, p ef = false) → added.countP p = 0 := by
    intro p hp
    rw [List.countP_eq_zero]
    intro ef hef
    simp [hp ef hef]
  refine ⟨s1, added, h1, hin, heff', hadded, cascadeAgain_of_wired g m v e1 es s1 hin, ?_, ?_⟩
  · rw [List.countP_append, hfwd _ (fun _ => rfl) (fun _ _ => rfl), heff']
    simp only [List.countP_append, hzero _ (fun ef hef => (hadded ef hef).1)]
    simp [List.countP_cons, Effect.isDispatchOf]
  · rw [List.countP_append, hfwd _ (fun _ => rfl) (fun _ _ => rfl), heff']
    simp only [List.countP_append, hzero _ (fun ef hef => (hadded ef hef).2)]
    simp [List.countP_cons, Effect.isConnectOf]

theorem cascadeFuel_effects {n : Nat} (g : Fin n → vertex n) (m : root n) :
    ∀ k v input s s' r, cascadeFuel g m k v input s = some (s', r) →
      ∃ added, s'.effects = s.effects ++ added := by
  apply cascadeFuel_rel g m (fun s s' => ∃ added, s'.effects = s.effects ++ added)
  · intro s
    exact ⟨[], by simp⟩
  · intro a b c hab hbc
    obtain ⟨x, hx⟩ := hab
    obtain ⟨y, hy⟩ := hbc
    exact ⟨x ++ y, by rw [hy, hx, List.append_assoc]⟩
  · intro s v input cur _
    exact ⟨[Effect.cascade v input, Effect.sendTo input cur], by simp [forwarded, State.log]⟩
  · intro s v input _
    exact ⟨[Effect.cascade v input,
        Effect.dispatch v m.option.FIFO (effective m (g v)) input, Effect.connect v],
      by simp [wired, State.log, State.setInput, State.register]⟩

theorem cascade_effects_head {n : Nat} (g : Fin n → vertex n) (m : root n) (v : Fin n)
    (input : EdgeId) (s s' : State n) (r : Option String)
    (h : cascade g m v input s = some (s', r)) :
    ∃ added, s'.effects = s.effects ++ Effect.cascade v input :: added := by
  unfold cascade at h
  simp only [cascadeFuel] at h
  cases hin : s.input v with
  | some cur =>
    simp only [hin, Option.some.injEq, Prod.mk.injEq] at h
    obtain ⟨rfl, _⟩ := h
    exact ⟨[Effect.sendTo input cur], by simp [forwarded, State.log]⟩
  | none =>
    simp only [hin] at h
    obtain ⟨added, hadd⟩ :=
      connectWith_rel (fun s s' => ∃ added, s'.effects = s.effects ++ added)
        (fun s => ⟨[], by simp⟩)
        (fun a b c hab hbc => by
          obtain ⟨x, hx⟩ := hab
          obtain ⟨y, hy⟩ := hbc
          exact ⟨x ++ y, by rw [hy, hx, List.append_assoc]⟩)
        (cascadeFuel g m n) (cascadeFuel_effects g m n) _ _ _ _ h
    exact ⟨Effect.dispatch v m.option.FIFO (effective m (g v)) input :: Effect.connect v :: added,
      by rw [hadd]; simp [wired, State.log, State.setInput, State.register]⟩

/-- C1. Termination gate: for a root whose child is unset `run` returns the error
"non-terminated machine" and leaves the machine as it found it, with no call
made (no retrieval, no conduit, no feed task, no cascade); for a root whose child
is set `run` invokes the retrieval, creates the first conduit, starts the feed
task, calls `cascade` on the child with that conduit, and what it returns is nil
and so not that error. -/
theorem run_termination_gate {n : Nat} (g : Fin n → vertex n) (m : root n) (s : State n)
    (v : Fin n) :
    run g { m with next := none } s = some (s, some "non-terminated machine") ∧
    ∃ s' r added,
      run g { m with next := some v } s = some (s', r) ∧
      r ≠ some "non-terminated machine" ∧
      r = none ∧
      s'.effects = s.effects ++
        [Effect.retrieve, Effect.newEdge s.nextEdge, Effect.feed s.nextEdge,
         Effect.cascade v s.nextEdge] ++ added := by
  refine ⟨rfl, ?_⟩
  obtain ⟨s', h⟩ := cascade_total g { m with next := some v } v s.nextEdge
    ((({ s.log Effect.retrieve with nextEdge := s.nextEdge + 1 } : State n).log
      (Effect.newEdge s.nextEdge)).log (Effect.feed s.nextEdge))
  obtain ⟨added, hadd⟩ := cascade_effects_head g _ v _ _ _ _ h
  refine ⟨s', none, added, ?_, by simp, rfl, ?_⟩
  · simpa [run, State.log] using h
  · rw [hadd]
    simp [State.log]

/-! ### The registry -/

theorem cascadeFuel_registry {n : Nat} (g : Fin n → vertex n) (m : root n) :
    ∀ k v input s s' r, cascadeFuel g m k v input s = some (s', r) →
      (∀ u, (s.input u).isSome = true → (s'.input u).isSome = true) ∧
      (RegistryOk g s → RegistryOk g s') := by
  apply cascadeFuel_rel g m
    (fun s s' => (∀ u, (s.input u).isSome = true → (s'.input u).isSome = true) ∧
      (RegistryOk g s → RegistryOk g s'))
  · intro s
    exact ⟨fun _ h => h, fun h => h⟩
  · intro a b c hab hbc
    exact ⟨fun u h => hbc.1 u (hab.1 u h), fun h => hbc.2 (hab.2 h)⟩
  · intro s v input cur _
    exact ⟨fun _ h => h, fun h => h⟩
  · intro s v input _
    have hmono : ∀ u, (s.input u).isSome = true → ((wired g m v input s).input u).isSome = true := by
      intro u hu
      by_cases huv : u = v
      · subst huv
        simp [wired, State.log, State.setInput, State.register]
      · simpa [wired, State.log, State.setInput, State.register, Function.update_noteq huv]
          using hu
    refine ⟨hmono, ?_⟩
    intro hok id u hu
    by_cases hid : id = (g v).id
    · subst hid
      have huv : u = v := by
        simpa [wired, State.log, State.setInput, State.register, eq_comm] using hu
      subst huv
      exact ⟨rfl, by simp [wired, State.log, State.setInput, State.register]⟩
    · have hu' : s.vertacies id = some u := by
        simpa [wired, State.log, State.setInput, State.register, Function.update_noteq hid]
          using hu
      exact ⟨(hok id u hu').1, hmono u (hok id u hu').2⟩

theorem cascadeCalls_registry {n : Nat} (g : Fin n → vertex n) (m : root n) :
    ∀ (calls : List (Fin n × EdgeId)) (s : State n), RegistryOk g s →
      ∃ s', cascadeCalls g m calls s = some s' ∧ RegistryOk g s' := by
  intro calls
  induction calls with
  | nil =>
    intro s hs
    exact ⟨s, rfl, hs⟩
  | cons c rest ih =>
    intro s hs
    obtain ⟨v, input⟩ := c
    obtain ⟨s1, h1⟩ := cascade_total g m v input s
    obtain ⟨s2, h2, hok⟩ := ih s1 ((cascadeFuel_registry g m _ _ _ _ _ _ h1).2 hs)
    exact ⟨s2, by simp [cascadeCalls, h1, h2], hok⟩

theorem injectSpans_apply (name id vertexType : String) (payload : Batch) (w : World) :
    injectSpans name id vertexType payload w =
      { w with trace := w.trace ++
          payload.map fun packet => Event.newSpan packet name name id vertexType } := by
  unfold injectSpans
  induction payload generalizing w with
  | nil => simp
  | cons p rest ih =>
    rw [List.foldl_cons, ih]
    simp [World.emit]

theorem pushesOf_newSpans (name id vertexType : String) (payload : Batch) :
    pushesOf (payload.map fun packet => Event.newSpan packet name name id vertexType) = [] := by
  induction payload with
  | nil => rfl
  | cons p rest ih => simp [pushesOf]

/-- With every registered vertex wired, the loop of `inject` never meets a nil
conduit: it keeps the packet heap and sends one batch per registered entry. -/
theorem injectNodes_apply {n : Nat} (g : Fin n → vertex n) (m : root n) (s : State n)
    (hreg : ∀ id v, s.vertacies id = some v → (s.input v).isSome = true) :
    ∀ (logs : List (String × Batch)) (w : World),
      ∃ w', injectNodes g m s logs w = some w' ∧ w'.store = w.store ∧
        pushesOf w'.trace = pushesOf w.trace ++ nodePushes s logs := by
  intro logs
  induction logs with
  | nil =>
    intro w
    exact ⟨w, rfl, rfl, by simp [nodePushes]⟩
  | cons entry rest ih =>
    intro w
    obtain ⟨node, payload⟩ := entry
    cases hv : s.vertacies node with
    | none =>
      obtain ⟨w', h1, h2, h3⟩ := ih w
      exact ⟨w', by simp [injectNodes, hv, h1], h2, by simp [nodePushes, hv, h3]⟩
    | some v =>
      obtain ⟨e, he⟩ := Option.isSome_iff_exists.1 (hreg node v hv)
      obtain ⟨w', h1, h2, h3⟩ := ih
        ((if m.option.Span then
            injectSpans ((g v).vertexType ++ ".inject") (g v).id (g v).vertexType payload w
          else w).emit (Event.push e payload))
      refine ⟨w', by simp [injectNodes, hv, he, h1], ?_, ?_⟩
      · rw [h2]
        split_ifs <;> simp [World.emit, injectSpans_apply]
      · rw [h3]
        have hp := pushesOf_newSpans ((g v).vertexType ++ ".inject") (g v).id (g v).vertexType
          payload
        unfold pushesOf at hp ⊢
        split_ifs <;>
          simp [World.emit, injectSpans_apply, nodePushes, hv, he, List.filterMap_append, hp]

/-- C10. Registry invariant: from an empty registry, any sequence of `cascade`
calls returns and leaves every registered vertex stored under its own id and
with an input conduit, so the loop of `inject` over any entries finds a conduit
behind every registered vertex. -/
theorem registry_invariant {n : Nat} (g : Fin n → vertex n) (m : root n)
    (calls : List (Fin n × EdgeId)) (s : State n) (hempty : ∀ id, s.vertacies id = none) :
    ∃ s', cascadeCalls g m calls s = some s' ∧
      RegistryOk g s' ∧
      (∀ id v, s'.vertacies id = some v → (g v).id = id ∧ ∃ e, s'.input v = some e) ∧
      ∀ (logs : List (String × Batch)) (w : World),
        ∃ w', injectNodes g m s' logs w = some w' := by
  have h0 : RegistryOk g s := by
    intro id v h
    rw [hempty id] at h
    exact Option.noConfusion h
  obtain ⟨s', h1, hok⟩ := cascadeCalls_registry g m calls s h0
  refine ⟨s', h1, hok, ?_, ?_⟩
  · intro id v h
    exact ⟨(hok id v h).1, Option.isSome_iff_exists.1 (hok id v h).2⟩
  · intro logs w
    obtain ⟨w', hw, _⟩ := injectNodes_apply g m s' (fun id v h => (hok id v h).2) logs w
    exact ⟨w', hw⟩

/-- C10 witness: the two nodes that feed each other, wired from the fresh state
by a call on each. -/
theorem registry_invariant_witness :
    (∀ id, (freshState 2).vertacies id = none) ∧
    ∃ s', cascadeCalls twoNodes twoNodesRoot [(0, 10), (1, 11)] (freshState 2) = some s' ∧
      RegistryOk twoNodes s' :=
  ⟨fun _ => rfl,
   (registry_invariant twoNodes twoNodesRoot [(0, 10), (1, 11)] (freshState 2) (fun _ => rfl)).imp
     fun _ h => ⟨h.1, h.2.1⟩⟩

/-- C2 witness: node "a" of the two nodes that feed each other, reached three
times from the fresh state. -/
theorem cascade_idempotent_witness :
    (freshState 2).input 0 = none ∧
    ∃ s1, cascade twoNodes twoNodesRoot 0 10 (freshState 2) = some (s1, none) ∧
      s1.input 0 = some 10 ∧
      cascadeAgain twoNodes twoNodesRoot 0 [11, 12] s1 =
        some ({ s1 with effects := s1.effects ++
                  [Effect.cascade 0 11, Effect.sendTo 11 10,
                   Effect.cascade 0 12, Effect.sendTo 12 10] },
              [none, none]) :=
  ⟨rfl,
   (cascade_idempotent twoNodes twoNodesRoot 0 10 [11, 12] (freshState 2) rfl).elim
     fun s1 h => h.elim fun _ h => ⟨s1, h.1, h.2.1, h.2.2.2.2.1⟩⟩

/-! ### Inject -/

theorem lookup_filter_targeted {n : Nat} (m : root n) (s : State n)
    (logs : List (String × Batch)) :
    (logs.filter fun entry => targeted m s entry.1).lookup m.id = logs.lookup m.id := by
  induction logs with
  | nil => rfl
  | cons entry rest ih =>
    obtain ⟨node, payload⟩ := entry
    by_cases hid : node = m.id
    · subst hid
      simp [List.filter_cons, targeted, List.lookup_cons]
    · have hne : (m.id == node) = false := beq_eq_false_iff_ne.2 (Ne.symm hid)
      by_cases ht : targeted m s node = true
      · simp [List.filter_cons, ht, List.lookup_cons, hne, ih]
      · simp [List.filter_cons, ht, List.lookup_cons, hne, ih]

theorem injectNodes_filter_targeted {n : Nat} (g : Fin n → vertex n) (m : root n) (s : State n) :
    ∀ (logs : List (String × Batch)) (w : World),
      injectNodes g m s (logs.filter fun entry => targeted m s entry.1) w =
        injectNodes g m s logs w := by
  intro logs
  induction logs with
  | nil =>
    intro w
    rfl
  | cons entry rest ih =>
    intro w
    obtain ⟨node, payload⟩ := entry
    cases hv : s.vertacies node with
    | none =>
      by_cases ht : targeted m s node = true
      · simp [List.filter_cons, ht, injectNodes, hv, ih]
      · simp [List.filter_cons, ht, injectNodes, hv, ih]
    | some v =>
      have ht : targeted m s node = true := by
        simp [targeted, hv]
      cases he : s.input v with
      | none => simp [List.filter_cons, ht, injectNodes, hv, he]
      | some e => simp [List.filter_cons, ht, injectNodes, hv, he, ih]

/-- C5. Inject targeting: on a running machine (the child of the root and every
registered vertex have an input) `inject` returns without meeting a nil conduit
and leaves the packets as they are; its sends are the entry stored under the id of
the root, if there is one, into the input of the child of the root, followed by
one send per entry whose id is registered, of that batch into the input of that
node; an entry whose id is neither the id of the root nor registered changes
nothing, the outcome being that of the same call without such entries. -/
theorem inject_targeting {n : Nat} (g : Fin n → vertex n) (m : root n) (s : State n)
    (logs : List (String × Batch)) (w : World) (c : Fin n) (e0 : EdgeId)
    (hnext : m.next = some c) (hc : s.input c = some e0)
    (hreg : ∀ id v, s.vertacies id = some v → (s.input v).isSome = true) :
    ∃ w', inject g m s logs w = some w' ∧
      w'.store = w.store ∧
      pushesOf w'.trace =
        pushesOf w.trace ++ ((logs.lookup m.id).map fun payload => (e0, payload)).toList ++
          nodePushes s logs ∧
      (∀ id payload v e, (id, payload) ∈ logs → s.vertacies id = some v → s.input v = some e →
        (e, payload) ∈ pushesOf w'.trace) ∧
      inject g m s (logs.filter fun entry => targeted m s entry.1) w = some w' := by
  have hroot : ∃ w1, injectRoot m s logs w = some w1 ∧ w1.store = w.store ∧
      pushesOf w1.trace =
        pushesOf w.trace ++ ((logs.lookup m.id).map fun payload => (e0, payload)).toList := by
    cases hl : logs.lookup m.id with
    | none => exact ⟨w, by simp [injectRoot, hl], rfl, by simp⟩
    | some payload =>
      refine ⟨(if m.option.Span then injectSpans "retriever.inject" m.id "retriever" payload w
          else w).emit (Event.push e0 payload), by simp [injectRoot, hl, hnext, hc], ?_, ?_⟩
      · split_ifs <;> simp [World.emit, injectSpans_apply]
      · have hp := pushesOf_newSpans "retriever.inject" m.id "retriever" payload
        unfold pushesOf at hp ⊢
        split_ifs <;> simp [World.emit, injectSpans_apply, List.filterMap_append, hp]
  obtain ⟨w1, h1, hs1, hp1⟩ := hroot
  obtain ⟨w', h2, hs2, hp2⟩ := injectNodes_apply g m s hreg logs w1
  have hpush : pushesOf w'.trace =
      pushesOf w.trace ++ ((logs.lookup m.id).map fun payload => (e0, payload)).toList ++
        nodePushes s logs := by
    rw [hp2, hp1]
  refine ⟨w', by simp [inject, h1, h2], by rw [hs2, hs1], hpush, ?_, ?_⟩
  · intro id payload v e hmem hv he
    rw [hpush]
    apply List.mem_append_right
    unfold nodePushes
    rw [List.mem_filterMap]
    exact ⟨(id, payload), hmem, by simp [hv, he]⟩
  · have h1' : injectRoot m s (logs.filter fun entry => targeted m s entry.1) w = some w1 := by
      have := lookup_filter_targeted m s logs
      simp only [injectRoot, this] at h1 ⊢
      exact h1
    simp [inject, h1', injectNodes_filter_targeted, h2]

/-- C5 witness: with the nodes "a" and "b" running, injecting the batch of packet 1
for "a" and the batch of packet 2 for the unknown "z" sends the first batch to the
conduit of "a" and nothing else. -/
theorem inject_targeting_witness :
    twoNodesRoot.next = some 0 ∧ twoNodesRunning.input 0 = some 10 ∧
    (∀ id v, twoNodesRunning.vertacies id = some v → (twoNodesRunning.input v).isSome = true) ∧
    ∃ w', inject twoNodes twoNodesRoot twoNodesRunning [("a", [1]), ("z", [2])] quietWorld =
        some w' ∧
      pushesOf w'.trace = [(10, [1])] :=
  have hreg : ∀ id v, twoNodesRunning.vertacies id = some v →
      (twoNodesRunning.input v).isSome = true := by
    intro id v _
    fin_cases v <;> rfl
  ⟨rfl, rfl, hreg,
   (inject_targeting twoNodes twoNodesRoot twoNodesRunning [("a", [1]), ("z", [2])] quietWorld
      0 10 rfl rfl hreg).imp
     fun _ h => ⟨h.1, h.2.2.1.trans (by decide)⟩⟩

end machine
